import Mathlib

/-!
Verification of the ingestion / fair-share distribution / tracking core of
the agent-management backend.

The definitions below are a shallow embedding of the JavaScript source:
  - src/models/list.js          (List schema, pre-save hook, updateItemStatus,
                                 distributeItems)
  - src/unnamed/part_000        (listController: uploadAndDistribute,
                                 aggregation pipelines, deleteList)
  - src/unnamed/part_002        (Agent schema, incrementAssignedCount)

Modelling conventions:
  - JavaScript numbers holding small non-negative counts are Nat; the agent
    counters, which the deletion path subtracts from and floors with
    Math.max(0, _), are Int so that the flooring is visible.
  - Date instants are abstract Nat ticks; an unset Date field is none.
  - Mongoose documents are structures; document.save() runs the pre-save
    hook and then persists, so save below is the hook applied to the state.
  - Agents are identified by their 0-indexed position in the ordered active
    agent list (Agent.findActiveAgents sorts by createdAt ascending).
-/

/-- Status lifecycle of one contact item
(src/models/list.js lines 24-28: enum pending / contacted / completed / failed). -/
inductive Status
  | pending
  | contacted
  | completed
  | failed
deriving DecidableEq

/-- One contact item of a Sub-List (listItemSchema, src/models/list.js lines 4-39).
The Mongo ObjectId is modelled as a Nat id. -/
structure Item where
  id : Nat
  firstName : String
  phone : String
  notes : String
  status : Status
  contactedAt : Option Nat
  completedAt : Option Nat
deriving DecidableEq

/-- A persisted List document, one agent share of one upload
(listSchema, src/models/list.js lines 42-93).  uploadId groups sibling
documents of one ingestion; agentIdx is the owning agent position.
Metadata fields that no claim touches (fileName, originalFileName,
uploadedBy, distributedAt, createdAt) are omitted; lastUpdated is kept
because the pre-save hook stamps it. -/
structure SubList where
  uploadId : String
  agentIdx : Nat
  items : List Item
  totalItems : Nat
  completedItems : Nat
  pendingItems : Nat
  lastUpdated : Nat
deriving DecidableEq

/-- Pre-save middleware (src/models/list.js lines 101-111): on every save the
three cached counters are recomputed in full from the item array and
lastUpdated is stamped. -/
def preSave (l : SubList) (now : Nat) : SubList :=
  { l with
    totalItems := l.items.length
    completedItems := (l.items.filter (fun it => it.status == Status.completed)).length
    pendingItems := (l.items.filter (fun it => it.status == Status.pending)).length
    lastUpdated := now }

/-- document.save(): mongoose runs the pre-save hook, then persists the
document; the persisted state is the hook output. -/
def save (l : SubList) (now : Nat) : SubList := preSave l now

/-- The body of updateItemStatus applied to the located item
(src/models/list.js lines 124-134): set the status; stamp contactedAt on a
transition into contacted only when it is still unset, else stamp
completedAt on a transition into completed only when it is still unset;
then Object.assign the additional data (the controller only ever passes a
notes override, src/unnamed/part_000 lines 497-498). -/
def applyUpdate (it : Item) (status : Status) (notesOverride : Option String)
    (now : Nat) : Item :=
  let it1 := { it with status := status }
  let it2 :=
    if status = Status.contacted ∧ it1.contactedAt = none then
      { it1 with contactedAt := some now }
    else if status = Status.completed ∧ it1.completedAt = none then
      { it1 with completedAt := some now }
    else it1
  match notesOverride with
  | some s => { it2 with notes := s }
  | none => it2

/-- this.items.id(itemId): the first item with the given id, if any. -/
def findItem (its : List Item) (itemId : Nat) : Option Item :=
  its.find? (fun it => it.id == itemId)

/-- Mutation of the one array entry this.items.id(itemId) returns: mongoose
mutates the found subdocument in place, so only the first item with the id
changes. -/
def updateFirst : List Item → Nat → (Item → Item) → List Item
  | [], _, _ => []
  | it :: rest, itemId, f =>
    if it.id == itemId then f it :: rest else it :: updateFirst rest itemId f

/-- Instance method updateItemStatus (src/models/list.js lines 114-137):
locate the item (throw "Item not found" when absent), update it, and
return this.save(), which recomputes the counters. -/
def updateItemStatus (l : SubList) (itemId : Nat) (status : Status)
    (notesOverride : Option String) (now : Nat) : Except String SubList :=
  match findItem l.items itemId with
  | none => Except.error "Item not found"
  | some _ =>
      let items2 :=
        updateFirst l.items itemId (fun it => applyUpdate it status notesOverride now)
      Except.ok (save { l with items := items2 } now)

/-- Agent counters the distribution core maintains
(agentSchema, src/unnamed/part_002 lines 42-49).  Int so that the
Math.max(0, _) flooring of the deletion path is observable. -/
structure AgentCtr where
  assignedListsCount : Int
  totalItemsAssigned : Int
deriving DecidableEq

/-- agent.incrementAssignedCount(itemsCount)
(src/unnamed/part_002 lines 100-104). -/
def incrementAssignedCount (a : AgentCtr) (itemsCount : Nat) : AgentCtr :=
  { assignedListsCount := a.assignedListsCount + 1
    totalItemsAssigned := a.totalItemsAssigned + itemsCount }

/-- The loop body of List.distributeItems (src/models/list.js lines 213-236),
iterating over the agents with running position i and the not yet assigned
suffix of the items (currentIndex advanced = prefix dropped).  The agent at
position i is assigned itemsPerAgent + (1 if i < remainder else 0) items,
sliced in order from the input; a document is persisted and the agent
counters incremented only when the slice is non-empty; the cursor advances
by itemCount regardless.  Returns the persisted (agent position, item
slice) pairs in order, and the agent list with its counters updated. -/
def distItemsGo {α : Type} (base rem : Nat) :
    Nat → List α → List AgentCtr → List (Nat × List α) × List AgentCtr
  | _, _, [] => ([], [])
  | i, rest, ag :: ags =>
    let itemCount := base + (if i < rem then 1 else 0)
    let agentItems := rest.take itemCount
    let tl := distItemsGo base rem (i + 1) (rest.drop itemCount) ags
    if 0 < agentItems.length then
      ((i, agentItems) :: tl.1, incrementAssignedCount ag agentItems.length :: tl.2)
    else
      (tl.1, ag :: tl.2)

/-- Static method List.distributeItems (src/models/list.js lines 201-242):
itemsPerAgent = floor(items.length / agents.length), remainder =
items.length mod agents.length, then the loop above from position 0.
The caller guarantees agents is non-empty (src/unnamed/part_000
lines 126-130). -/
def distributeItems {α : Type} (items : List α) (agents : List AgentCtr) :
    List (Nat × List α) × List AgentCtr :=
  distItemsGo (items.length / agents.length) (items.length % agents.length)
    0 items agents

/-- The per-position slices the distributeItems loop computes (the value of
agentItems at position i), before the non-empty filter that decides
persistence: fuel counts the remaining agents. -/
def sliceGroups {α : Type} (base rem : Nat) : Nat → Nat → List α → List (List α)
  | _, 0, _ => []
  | i, f + 1, rest =>
    let itemCount := base + (if i < rem then 1 else 0)
    rest.take itemCount :: sliceGroups base rem (i + 1) f (rest.drop itemCount)

/-- All m per-agent groups of the distribution of items over m agents, one per
agent position, empty groups included. -/
def distributeGroups {α : Type} (items : List α) (m : Nat) : List (List α) :=
  sliceGroups (items.length / m) (items.length % m) 0 m items

/-- Total number of items the loop hands out to the fuel next agents starting
at position i. -/
def remTotal (base rem : Nat) : Nat → Nat → Nat
  | _, 0 => 0
  | i, f + 1 => (base + (if i < rem then 1 else 0)) + remTotal base rem (i + 1) f

theorem remTotal_eq (base rem : Nat) :
    ∀ (f i : Nat), remTotal base rem i f = f * base + (min (i + f) rem - min i rem) := by
  intro f
  induction f with
  | zero => intro i; simp [remTotal]
  | succ f ih =>
      intro i
      have h := ih (i + 1)
      simp only [remTotal, h]
      have hm : (f + 1) * base = f * base + base := by ring
      by_cases hc : i < rem
      · simp only [if_pos hc]
        omega
      · simp only [if_neg hc]
        omega

theorem remTotal_full (base rem m : Nat) (h : rem < m) :
    remTotal base rem 0 m = m * base + rem := by
  have := remTotal_eq base rem m 0
  omega

theorem sliceGroups_length {α : Type} (base rem : Nat) :
    ∀ (f i : Nat) (rest : List α), (sliceGroups base rem i f rest).length = f := by
  intro f
  induction f with
  | zero => intro i rest; simp [sliceGroups]
  | succ f ih => intro i rest; simp [sliceGroups, ih]

theorem sliceGroups_flatten {α : Type} (base rem : Nat) :
    ∀ (f i : Nat) (rest : List α), rest.length = remTotal base rem i f →
      (sliceGroups base rem i f rest).flatten = rest := by
  intro f
  induction f with
  | zero =>
      intro i rest h
      simp only [remTotal] at h
      have : rest = [] := List.eq_nil_of_length_eq_zero h
      simp [sliceGroups, this]
  | succ f ih =>
      intro i rest h
      simp only [remTotal] at h
      simp only [sliceGroups, List.flatten_cons]
      have hdrop : (rest.drop (base + if i < rem then 1 else 0)).length
          = remTotal base rem (i + 1) f := by
        simp [List.length_drop]
        omega
      rw [ih (i + 1) _ hdrop]
      exact List.take_append_drop _ rest

theorem sliceGroups_getD {α : Type} (base rem : Nat) :
    ∀ (f i : Nat) (rest : List α), rest.length = remTotal base rem i f →
      ∀ j, j < f →
        ((sliceGroups base rem i f rest).getD j []).length
          = base + (if i + j < rem then 1 else 0) := by
  intro f
  induction f with
  | zero => intro i rest _ j hj; omega
  | succ f ih =>
      intro i rest h j hj
      simp only [remTotal] at h
      cases j with
      | zero =>
          simp only [sliceGroups, List.getD_cons_zero, List.length_take, Nat.add_zero]
          omega
      | succ j =>
          simp only [sliceGroups, List.getD_cons_succ]
          have hdrop : (rest.drop (base + if i < rem then 1 else 0)).length
              = remTotal base rem (i + 1) f := by
            simp [List.length_drop]
            omega
          have := ih (i + 1) _ hdrop j (by omega)
          have harith : i + 1 + j = i + (j + 1) := by omega
          rw [harith] at this
          exact this

theorem distItemsGo_fst {α : Type} (base rem : Nat) :
    ∀ (ags : List AgentCtr) (i : Nat) (rest : List α),
      (distItemsGo base rem i rest ags).1
        = ((sliceGroups base rem i ags.length rest).enumFrom i).filter
            (fun p => decide (0 < p.2.length)) := by
  intro ags
  induction ags with
  | nil => intro i rest; simp [distItemsGo, sliceGroups]
  | cons ag ags ih =>
      intro i rest
      simp only [distItemsGo, List.length_cons, sliceGroups, List.enumFrom,
        List.filter]
      by_cases hc : 0 < (rest.take (base + if i < rem then 1 else 0)).length
      · simp only [if_pos hc, decide_eq_true hc]
        simp [ih]
      · simp only [if_neg hc]
        have : decide (0 < (rest.take (base + if i < rem then 1 else 0)).length)
            = false := by
          simpa using hc
        simp only [this]
        simp [ih]

theorem distItemsGo_snd {α : Type} (base rem : Nat) :
    ∀ (ags : List AgentCtr) (i : Nat) (rest : List α),
      (distItemsGo base rem i rest ags).2
        = List.zipWith
            (fun ag g => if 0 < g.length then incrementAssignedCount ag g.length else ag)
            ags (sliceGroups base rem i ags.length rest) := by
  intro ags
  induction ags with
  | nil => intro i rest; simp [distItemsGo]
  | cons ag ags ih =>
      intro i rest
      simp only [distItemsGo, List.length_cons, sliceGroups, List.zipWith]
      by_cases hc : 0 < (rest.take (base + if i < rem then 1 else 0)).length
      · simp only [if_pos hc]
        simp [ih]
      · simp only [if_neg hc]
        simp [ih]

theorem mem_enumFrom_getD {α : Type} :
    ∀ (l : List α) (k j : Nat) (d : α), j < l.length →
      (k + j, l.getD j d) ∈ l.enumFrom k := by
  intro l
  induction l with
  | nil => intro k j d h; simp at h
  | cons a l ih =>
      intro k j d h
      cases j with
      | zero => simp [List.enumFrom]
      | succ j =>
          have := ih (k + 1) j d (by simpa using Nat.lt_of_succ_lt_succ h)
          have harith : k + (j + 1) = k + 1 + j := by omega
          rw [harith]
          simp only [List.enumFrom, List.mem_cons]
          exact Or.inr this

theorem enumFrom_mem_spec {α : Type} :
    ∀ (l : List α) (k : Nat) (p : Nat × α) (d : α), p ∈ l.enumFrom k →
      k ≤ p.1 ∧ p.1 < k + l.length ∧ p.2 = l.getD (p.1 - k) d := by
  intro l
  induction l with
  | nil => intro k p d h; simp [List.enumFrom] at h
  | cons a l ih =>
      intro k p d h
      simp only [List.enumFrom, List.mem_cons] at h
      rcases h with h | h
      · subst h
        simp
      · have := ih (k + 1) p d h
        refine ⟨by omega, by simp only [List.length_cons]; omega, ?_⟩
        have h1 : p.1 - k = (p.1 - (k + 1)) + 1 := by omega
        rw [h1, List.getD_cons_succ]
        exact this.2.2

theorem zipWith_getD {α β γ : Type} (f : α → β → γ) :
    ∀ (as : List α) (bs : List β) (i : Nat) (d : γ) (da : α) (db : β),
      i < as.length → i < bs.length →
      (List.zipWith f as bs).getD i d = f (as.getD i da) (bs.getD i db) := by
  intro as
  induction as with
  | nil => intro bs i d da db h1 h2; simp at h1
  | cons a as ih =>
      intro bs i d da db h1 h2
      cases bs with
      | nil => simp at h2
      | cons b bs =>
          cases i with
          | zero => simp [List.zipWith]
          | succ i =>
              simp only [List.zipWith, List.getD_cons_succ]
              exact ih bs i d da db (by simpa using Nat.lt_of_succ_lt_succ h1)
                (by simpa using Nat.lt_of_succ_lt_succ h2)

theorem distributeGroups_length_total {α : Type} (items : List α) (m : Nat)
    (hm : 1 ≤ m) :
    items.length
      = remTotal (items.length / m) (items.length % m) 0 m := by
  have hrem : items.length % m < m := Nat.mod_lt _ hm
  rw [remTotal_full _ _ _ hrem]
  have := Nat.div_add_mod items.length m
  omega

/-- C1: for N items and M at least 1 ordered agents, distributeItems computes
for the agent at 0-indexed position i a contiguous slice of the input, of
size floor(N/M)+1 when i < N mod M and floor(N/M) otherwise, taken in input
order: the M per-position groups concatenate back to the input (so the group
sizes sum to N, contiguity in order), each group has the stated size, a
group is oversized exactly when i < N mod M, and the persisted distribution
list is exactly the position-indexed non-empty groups in order. -/
theorem distributeItems_fair_split {α : Type} (items : List α)
    (agents : List AgentCtr) (hm : 1 ≤ agents.length) :
    (distributeGroups items agents.length).length = agents.length ∧
    (distributeGroups items agents.length).flatten = items ∧
    ((distributeGroups items agents.length).map List.length).sum = items.length ∧
    (∀ i, i < agents.length →
      ((distributeGroups items agents.length).getD i []).length
        = items.length / agents.length
          + (if i < items.length % agents.length then 1 else 0)) ∧
    (∀ i, i < agents.length →
      (((distributeGroups items agents.length).getD i []).length
          = items.length / agents.length + 1
        ↔ i < items.length % agents.length)) ∧
    (distributeItems items agents).1
      = ((distributeGroups items agents.length).enum.filter
          (fun p => decide (0 < p.2.length))) := by
  have hfull := distributeGroups_length_total items agents.length hm
  have hsize : ∀ i, i < agents.length →
      ((distributeGroups items agents.length).getD i []).length
        = items.length / agents.length
          + (if i < items.length % agents.length then 1 else 0) := by
    intro i hi
    have := sliceGroups_getD (items.length / agents.length)
      (items.length % agents.length) agents.length 0 items hfull i hi
    simpa [distributeGroups] using this
  refine ⟨?_, ?_, ?_, hsize, ?_, ?_⟩
  · simp only [distributeGroups]
    exact sliceGroups_length _ _ _ _ _
  · simp only [distributeGroups]
    exact sliceGroups_flatten _ _ _ _ _ hfull
  · have hflat : (distributeGroups items agents.length).flatten = items := by
      simp only [distributeGroups]
      exact sliceGroups_flatten _ _ _ _ _ hfull
    rw [← List.length_flatten, hflat]
  · intro i hi
    rw [hsize i hi]
    by_cases hc : i < items.length % agents.length
    · simp only [if_pos hc]
      constructor
      · intro _; exact hc
      · intro _; trivial
    · simp only [if_neg hc]
      constructor
      · intro h; omega
      · intro h; exact absurd h hc
  · have := distItemsGo_fst (items.length / agents.length)
      (items.length % agents.length) agents 0 items
    simpa [distributeItems, distributeGroups, List.enum] using this

theorem distributeItems_fair_split_witness :
    (distributeGroups ([1, 2, 3, 4, 5, 6, 7] : List Nat)
        ([⟨0, 0⟩, ⟨0, 0⟩, ⟨0, 0⟩] : List AgentCtr).length).flatten
      = [1, 2, 3, 4, 5, 6, 7] ∧
    (distributeGroups ([1, 2, 3, 4, 5, 6, 7] : List Nat)
        ([⟨0, 0⟩, ⟨0, 0⟩, ⟨0, 0⟩] : List AgentCtr).length).map List.length
      = [3, 2, 2] := by
  have h := distributeItems_fair_split ([1, 2, 3, 4, 5, 6, 7] : List Nat)
    ([⟨0, 0⟩, ⟨0, 0⟩, ⟨0, 0⟩] : List AgentCtr) (by decide)
  exact ⟨h.2.1, by decide⟩

/-- C7: a Sub-List is persisted only for a non-empty group (an agent whose
computed share is empty, which happens exactly when M is greater than N and
the agent position is at least N, gets no Sub-List); for each persisted
group the owning agent has assignedListsCount incremented by exactly 1 and
totalItemsAssigned by exactly the group size (incrementAssignedCount), and
an agent with an empty share keeps its counters unchanged. -/
theorem distributeItems_persist_and_increment {α : Type} (items : List α)
    (agents : List AgentCtr) (hm : 1 ≤ agents.length) (i : Nat)
    (hi : i < agents.length) :
    (0 < ((distributeGroups items agents.length).getD i []).length →
      ((i, (distributeGroups items agents.length).getD i [])
          ∈ (distributeItems items agents).1 ∧
        (distributeItems items agents).2.getD i ⟨0, 0⟩
          = incrementAssignedCount (agents.getD i ⟨0, 0⟩)
              ((distributeGroups items agents.length).getD i []).length)) ∧
    (((distributeGroups items agents.length).getD i []).length = 0 →
      ((∀ p ∈ (distributeItems items agents).1, p.1 ≠ i) ∧
        (distributeItems items agents).2.getD i ⟨0, 0⟩ = agents.getD i ⟨0, 0⟩)) ∧
    (((distributeGroups items agents.length).getD i []).length = 0 ↔
      (items.length < agents.length ∧ items.length ≤ i)) := by
  have hm0 : 0 < agents.length := hm
  have hfull := distributeGroups_length_total items agents.length hm
  have hglen : (distributeGroups items agents.length).length = agents.length := by
    simp only [distributeGroups]
    exact sliceGroups_length _ _ _ _ _
  have hfst : (distributeItems items agents).1
      = ((distributeGroups items agents.length).enumFrom 0).filter
          (fun p => decide (0 < p.2.length)) := by
    have := distItemsGo_fst (items.length / agents.length)
      (items.length % agents.length) agents 0 items
    simpa [distributeItems, distributeGroups] using this
  have hsnd : (distributeItems items agents).2
      = List.zipWith
          (fun ag g => if 0 < g.length then incrementAssignedCount ag g.length else ag)
          agents (distributeGroups items agents.length) := by
    have := distItemsGo_snd (items.length / agents.length)
      (items.length % agents.length) agents 0 items
    simpa [distributeItems, distributeGroups] using this
  have hzip : (distributeItems items agents).2.getD i ⟨0, 0⟩
      = (if 0 < ((distributeGroups items agents.length).getD i []).length then
          incrementAssignedCount (agents.getD i ⟨0, 0⟩)
            ((distributeGroups items agents.length).getD i []).length
        else agents.getD i ⟨0, 0⟩) := by
    rw [hsnd]
    exact zipWith_getD
      (fun ag g => if 0 < g.length then incrementAssignedCount ag g.length else ag)
      agents (distributeGroups items agents.length) i ⟨0, 0⟩ ⟨0, 0⟩ [] hi
      (by rw [hglen]; exact hi)
  have hsize := sliceGroups_getD (items.length / agents.length)
    (items.length % agents.length) agents.length 0 items hfull i hi
  refine ⟨?_, ?_, ?_⟩
  · intro hpos
    constructor
    · rw [hfst]
      rw [List.mem_filter]
      constructor
      · have := mem_enumFrom_getD (distributeGroups items agents.length) 0 i []
          (by omega)
        simpa using this
      · simpa using hpos
    · rw [hzip, if_pos hpos]
  · intro hz
    constructor
    · intro p hp
      rw [hfst] at hp
      rw [List.mem_filter] at hp
      intro hpi
      have hspec := enumFrom_mem_spec (distributeGroups items agents.length) 0 p [] hp.1
      have hp2 : p.2 = (distributeGroups items agents.length).getD i [] := by
        have := hspec.2.2
        rw [hpi] at this
        simpa using this
      have hpp := hp.2
      rw [hp2] at hpp
      rw [hz] at hpp
      simp at hpp
    · rw [hzip, if_neg (by omega)]
  · have harith : ((distributeGroups items agents.length).getD i []).length
        = items.length / agents.length
          + (if 0 + i < items.length % agents.length then 1 else 0) := by
      simpa [distributeGroups] using hsize
    rw [harith]
    rcases Nat.lt_or_ge items.length agents.length with hnm | hnm
    · have h0 : items.length / agents.length = 0 := Nat.div_eq_of_lt hnm
      have hmm : items.length % agents.length = items.length :=
        Nat.mod_eq_of_lt hnm
      rw [h0, hmm]
      by_cases hc : 0 + i < items.length
      · simp only [if_pos hc]
        constructor
        · intro h; omega
        · intro h; omega
      · simp only [if_neg hc]
        constructor
        · intro _; omega
        · intro _; trivial
    · have h1 : 1 ≤ items.length / agents.length :=
        (Nat.one_le_div_iff hm0).mpr hnm
      constructor
      · intro h; omega
      · intro h; omega

theorem distributeItems_persist_and_increment_witness :
    0 < ((distributeGroups ([10, 20, 30, 40] : List Nat)
        ([⟨0, 0⟩, ⟨1, 5⟩, ⟨2, 7⟩] : List AgentCtr).length).getD 0 []).length ∧
    (0, [10, 20]) ∈ (distributeItems ([10, 20, 30, 40] : List Nat)
        ([⟨0, 0⟩, ⟨1, 5⟩, ⟨2, 7⟩] : List AgentCtr)).1 ∧
    (distributeItems ([10, 20, 30, 40] : List Nat)
        ([⟨0, 0⟩, ⟨1, 5⟩, ⟨2, 7⟩] : List AgentCtr)).2.getD 0 ⟨0, 0⟩
      = ⟨1, 2⟩ := by
  have h := distributeItems_persist_and_increment ([10, 20, 30, 40] : List Nat)
    ([⟨0, 0⟩, ⟨1, 5⟩, ⟨2, 7⟩] : List AgentCtr) (by decide) 0 (by decide)
  have hpos : 0 < ((distributeGroups ([10, 20, 30, 40] : List Nat)
      ([⟨0, 0⟩, ⟨1, 5⟩, ⟨2, 7⟩] : List AgentCtr).length).getD 0 []).length := by decide
  refine ⟨hpos, ?_, ?_⟩
  · exact (h.1 hpos).1
  · exact (h.1 hpos).2

/-- The cached counters of a document agree with a recomputation from its
item array (the invariant the spec states for every Sub-List). -/
def countersConsistent (l : SubList) : Prop :=
  l.totalItems = l.items.length ∧
  l.completedItems
    = (l.items.filter (fun it => it.status == Status.completed)).length ∧
  l.pendingItems
    = (l.items.filter (fun it => it.status == Status.pending)).length

/-- Characterization of a successful updateItemStatus call. -/
theorem updateItemStatus_ok (l : SubList) (itemId : Nat) (st : Status)
    (nt : Option String) (now : Nat) (l' : SubList) :
    updateItemStatus l itemId st nt now = Except.ok l' ↔
      ((findItem l.items itemId).isSome = true ∧
        l' = save { l with items := updateFirst l.items itemId (fun it => applyUpdate it st nt now) } now) := by
  unfold updateItemStatus
  cases hf : findItem l.items itemId with
  | none => simp
  | some it =>
      simp only [Option.isSome_some, true_and, Except.ok.injEq]
      exact ⟨fun h => h.symm, fun h => h.symm⟩

/-- C2: every persisted mutation goes through save, whose pre-save hook
recomputes totalItems, completedItems and pendingItems in full from the
item array, whatever the counters held before (so they are never patched
incrementally): any saved state is counter-consistent, and in particular
any state a successful updateItemStatus call persists, as well as the
state persisted when a document is first created (distributeItems saves
each new document through the same hook). -/
theorem save_recomputes_counters (l : SubList) (now : Nat) :
    countersConsistent (save l now) ∧
    (∀ (itemId : Nat) (st : Status) (nt : Option String) (t : Nat)
        (l2 : SubList),
      updateItemStatus l itemId st nt t = Except.ok l2 →
        countersConsistent l2) := by
  constructor
  · exact ⟨rfl, rfl, rfl⟩
  · intro itemId st nt t l2 h
    rw [updateItemStatus_ok] at h
    rw [h.2]
    exact ⟨rfl, rfl, rfl⟩

theorem applyUpdate_id (it : Item) (st : Status) (nt : Option String) (t : Nat) :
    (applyUpdate it st nt t).id = it.id := by
  obtain ⟨iid, fn, ph, no, stt, ca, co⟩ := it
  cases nt <;> cases st <;> cases ca <;> cases co <;> simp [applyUpdate]

theorem applyUpdate_idem (it : Item) (st : Status) (nt : Option String)
    (t1 t2 : Nat) :
    applyUpdate (applyUpdate it st nt t1) st nt t2 = applyUpdate it st nt t1 := by
  obtain ⟨iid, fn, ph, no, stt, ca, co⟩ := it
  cases st <;> cases nt <;> cases ca <;> cases co <;> simp [applyUpdate]

theorem updateFirst_comp (xs : List Item) (itemId : Nat) (f g : Item → Item)
    (hf : ∀ x, (f x).id = x.id) :
    updateFirst (updateFirst xs itemId f) itemId g
      = updateFirst xs itemId (fun x => g (f x)) := by
  induction xs with
  | nil => rfl
  | cons it rest ih =>
      by_cases hc : (it.id == itemId) = true
      · simp [updateFirst, hc, hf it]
      · simp [updateFirst, hc, ih]

/-- C4: re-applying the same status (and the same notes override) to the same
item is idempotent on the persisted item array, hence on the contactedAt and
completedAt stamps (they are written only on the first entry into contacted
or completed), and on all three cached counters; only lastUpdated can move. -/
theorem updateItemStatus_idempotent (l : SubList) (itemId : Nat) (st : Status)
    (nt : Option String) (t1 t2 : Nat) (l1 l2 : SubList)
    (h1 : updateItemStatus l itemId st nt t1 = Except.ok l1)
    (h2 : updateItemStatus l1 itemId st nt t2 = Except.ok l2) :
    l2.items = l1.items ∧ l2.totalItems = l1.totalItems ∧
    l2.completedItems = l1.completedItems ∧ l2.pendingItems = l1.pendingItems := by
  rw [updateItemStatus_ok] at h1 h2
  obtain ⟨hs1, hl1⟩ := h1
  obtain ⟨hs2, hl2⟩ := h2
  subst hl2
  subst hl1
  have hcomp : updateFirst
      (updateFirst l.items itemId (fun it => applyUpdate it st nt t1)) itemId
      (fun it => applyUpdate it st nt t2)
      = updateFirst l.items itemId (fun it => applyUpdate it st nt t1) := by
    rw [updateFirst_comp _ _ _ _ (fun x => applyUpdate_id x st nt t1)]
    have hfun : (fun x => applyUpdate (applyUpdate x st nt t1) st nt t2)
        = (fun x => applyUpdate x st nt t1) :=
      funext (fun x => applyUpdate_idem x st nt t1 t2)
    rw [hfun]
  refine ⟨?_, ?_, ?_, ?_⟩ <;>
    simp only [save, preSave] <;>
    rw [hcomp]

/-- One decoded data row as the parsing stage hands it to the validation loop
(src/unnamed/part_000 lines 29-70): a mapping from the lower-cased trimmed
column names firstname / phone / notes to the raw cell text; none models a
column absent from the row object. -/
structure RawRow where
  firstname : Option String
  phone : Option String
  notes : Option String
deriving DecidableEq

/-- JavaScript String.prototype.trim: strip leading and trailing whitespace.
Modelled directly on the character list so that it evaluates. -/
def jsTrim (s : String) : String :=
  String.mk (((s.data.dropWhile Char.isWhitespace).reverse.dropWhile
    Char.isWhitespace).reverse)

/-- One character of the phone character class of the pattern at
src/unnamed/part_000 line 105: a digit, whitespace, a parenthesis or a
hyphen. -/
def isPhoneChar (c : Char) : Bool :=
  c.isDigit || c.isWhitespace || c = '(' || c = ')' || c = '-'

/-- The anchored phone pattern of src/unnamed/part_000 line 105: an optional
leading plus sign followed by one or more phone-class characters. -/
def phoneMatch (s : String) : Bool :=
  match s.data with
  | [] => false
  | c :: cs =>
    if c = '+' then !cs.isEmpty && cs.all isPhoneChar
    else (c :: cs).all isPhoneChar

/-- The per-row checks of the validation loop (src/unnamed/part_000
lines 93-108), in source order: missing or blank first name, then missing or
blank phone, then the phone pattern; none means the row is accepted.  The
returned string is the reason text after the "Row N: " prefix of the message
the code builds. -/
def checkRow (row : RawRow) : Option String :=
  if jsTrim (row.firstname.getD "") = "" then some "FirstName is required"
  else if jsTrim (row.phone.getD "") = "" then some "Phone is required"
  else if !phoneMatch (jsTrim (row.phone.getD "")) then
    some "Invalid phone number format"
  else none

/-- A row-level rejection: the 1-based row number the message carries
(index + 2, accounting for the header row) and the reason text. -/
structure RowError where
  rowNumber : Nat
  reason : String
deriving DecidableEq

/-- Validated contact record pushed for an accepted row
(src/unnamed/part_000 lines 110-114): first name and phone trimmed, notes
defaulted to the empty string and trimmed. -/
structure Contact where
  firstName : String
  phone : String
  notes : String
deriving DecidableEq

def cleanRow (row : RawRow) : Contact :=
  { firstName := jsTrim (row.firstname.getD "")
    phone := jsTrim (row.phone.getD "")
    notes := jsTrim (row.notes.getD "") }

/-- The data.forEach validation loop (src/unnamed/part_000 lines 86-115)
started at 0-based index idx: every row is inspected, a failing row appends
a RowError with rowNumber = index + 2, an accepted row appends its cleaned
contact; order is preserved on both sides. -/
def validateRowsFrom : Nat → List RawRow → List RowError × List Contact
  | _, [] => ([], [])
  | idx, row :: rows =>
    let rest := validateRowsFrom (idx + 1) rows
    match checkRow row with
    | some reason => (⟨idx + 2, reason⟩ :: rest.1, rest.2)
    | none => (rest.1, cleanRow row :: rest.2)

def validateRows (rows : List RawRow) : List RowError × List Contact :=
  validateRowsFrom 0 rows

/-- The distinct failure outcomes of the ingestion path
(src/unnamed/part_000 lines 78-130), named after the thrown messages:
missingColumns = "Missing required columns: ...", validationFailed =
"Data validation failed:" with the aggregated row reasons, noValidDataRows =
"No valid data rows found in the file", noActiveAgents = "No active agents
available for distribution". -/
inductive IngestError
  | missingColumns (fields : List String)
  | validationFailed (errors : List RowError)
  | noValidDataRows
  | noActiveAgents
deriving DecidableEq

/-- data[0].hasOwnProperty(field) for the three required columns. -/
def hasField (row : RawRow) (f : String) : Bool :=
  if f = "firstname" then row.firstname.isSome
  else if f = "phone" then row.phone.isSome
  else if f = "notes" then row.notes.isSome
  else false

def requiredFields : List String := ["firstname", "phone", "notes"]

/-- The header check of src/unnamed/part_000 lines 72-77: a required field is
missing when there is no first data row at all, or the first data row lacks
the property. -/
def missingFields (rows : List RawRow) : List String :=
  requiredFields.filter (fun f =>
    match rows.head? with
    | none => true
    | some row => !hasField row f)

/-- The decoded-rows half of uploadAndDistribute (src/unnamed/part_000
lines 72-148), file parsing aside: header check, then the validation loop
with aggregated abort, then the empty-data check, then the active-agent
check, then List.distributeItems on the validated contacts.  An error
outcome persists nothing. -/
def uploadAndDistribute (rows : List RawRow) (agents : List AgentCtr) :
    Except IngestError (List (Nat × List Contact) × List AgentCtr) :=
  if missingFields rows ≠ [] then
    Except.error (IngestError.missingColumns (missingFields rows))
  else if (validateRows rows).1 ≠ [] then
    Except.error (IngestError.validationFailed (validateRows rows).1)
  else if (validateRows rows).2.length = 0 then
    Except.error IngestError.noValidDataRows
  else if agents.length = 0 then
    Except.error IngestError.noActiveAgents
  else
    Except.ok (distributeItems (validateRows rows).2 agents)

theorem validateRowsFrom_errors (rows : List RawRow) : ∀ (idx : Nat),
    (∀ e ∈ (validateRowsFrom idx rows).1,
      idx + 2 ≤ e.rowNumber ∧ e.rowNumber < idx + rows.length + 2 ∧
      checkRow (rows.getD (e.rowNumber - (idx + 2)) ⟨none, none, none⟩)
        = some e.reason) ∧
    (∀ j, j < rows.length → ∀ r,
      checkRow (rows.getD j ⟨none, none, none⟩) = some r →
      RowError.mk (idx + j + 2) r ∈ (validateRowsFrom idx rows).1) := by
  induction rows with
  | nil =>
      intro idx
      constructor
      · intro e he
        simp [validateRowsFrom] at he
      · intro j hj
        simp at hj
  | cons row rows ih =>
      intro idx
      constructor
      · intro e he
        cases hc : checkRow row with
        | some reason =>
            simp only [validateRowsFrom, hc, List.mem_cons] at he
            rcases he with he | he
            · subst he
              refine ⟨Nat.le_refl _, ?_, ?_⟩
              · show idx + 2 < idx + (row :: rows).length + 2
                simp only [List.length_cons]
                omega
              · show checkRow ((row :: rows).getD (idx + 2 - (idx + 2))
                    ⟨none, none, none⟩) = some reason
                simp only [Nat.sub_self, List.getD_cons_zero]
                exact hc
            · have h3 := ((ih (idx + 1)).1 e he)
              refine ⟨by omega, by simp only [List.length_cons]; omega, ?_⟩
              have h4 : e.rowNumber - (idx + 2) = (e.rowNumber - (idx + 1 + 2)) + 1 := by
                omega
              rw [h4, List.getD_cons_succ]
              exact h3.2.2
        | none =>
            simp only [validateRowsFrom, hc] at he
            have h3 := ((ih (idx + 1)).1 e he)
            refine ⟨by omega, by simp only [List.length_cons]; omega, ?_⟩
            have h4 : e.rowNumber - (idx + 2) = (e.rowNumber - (idx + 1 + 2)) + 1 := by
              omega
            rw [h4, List.getD_cons_succ]
            exact h3.2.2
      · intro j hj r hr
        cases j with
        | zero =>
            simp only [List.getD_cons_zero] at hr
            simp only [validateRowsFrom, hr, List.mem_cons]
            left
            simp
        | succ j =>
            simp only [List.getD_cons_succ] at hr
            have h5 := (ih (idx + 1)).2 j (by simpa using Nat.lt_of_succ_lt_succ hj) r hr
            have h6 : idx + 1 + j + 2 = idx + (j + 1) + 2 := by omega
            rw [h6] at h5
            cases hc : checkRow row with
            | some reason =>
                simp only [validateRowsFrom, hc, List.mem_cons]
                exact Or.inr h5
            | none =>
                simp only [validateRowsFrom, hc]
                exact h5

/-- C3: when the decoded rows have the required columns and at least one row
fails the first-name or phone rules, the whole ingestion fails with the
aggregated list of every row-level reason and persists nothing (the result
is an error, so no Sub-List and no counter update is produced); every
aggregated reason carries rowNumber = 0-based row index + 2, so the first
data row is reported as row 2, and every failing row contributes its
reason. -/
theorem ingestion_atomic_validation (rows : List RawRow) (agents : List AgentCtr)
    (hcols : missingFields rows = [])
    (hne : (validateRows rows).1 ≠ []) :
    uploadAndDistribute rows agents
      = Except.error (IngestError.validationFailed (validateRows rows).1) ∧
    (∀ e ∈ (validateRows rows).1,
      2 ≤ e.rowNumber ∧ e.rowNumber < rows.length + 2 ∧
      checkRow (rows.getD (e.rowNumber - 2) ⟨none, none, none⟩) = some e.reason) ∧
    (∀ j, j < rows.length → ∀ r,
      checkRow (rows.getD j ⟨none, none, none⟩) = some r →
      RowError.mk (j + 2) r ∈ (validateRows rows).1) := by
  have herr := validateRowsFrom_errors rows 0
  refine ⟨?_, ?_, ?_⟩
  · simp [uploadAndDistribute, hcols, hne]
  · intro e he
    have := herr.1 e he
    simpa using this
  · intro j hj r hr
    have := herr.2 j hj r hr
    simpa using this

theorem ingestion_atomic_validation_witness :
    uploadAndDistribute
        [⟨some "John", some "abc", some "note"⟩,
          ⟨some "Mary", some "+1 (23)-4", some ""⟩,
          ⟨some " ", some "77", some ""⟩] []
      = Except.error (IngestError.validationFailed
          [⟨2, "Invalid phone number format"⟩, ⟨4, "FirstName is required"⟩]) ∧
    RowError.mk 2 "Invalid phone number format"
      ∈ (validateRows
          [⟨some "John", some "abc", some "note"⟩,
            ⟨some "Mary", some "+1 (23)-4", some ""⟩,
            ⟨some " ", some "77", some ""⟩]).1 := by
  have h := ingestion_atomic_validation
    [⟨some "John", some "abc", some "note"⟩,
      ⟨some "Mary", some "+1 (23)-4", some ""⟩,
      ⟨some " ", some "77", some ""⟩] [] (by decide) (by decide)
  refine ⟨h.1, ?_⟩
  exact h.2.2 0 (by decide) "Invalid phone number format" (by decide)

theorem validateRowsFrom_lengths (rows : List RawRow) : ∀ (idx : Nat),
    (validateRowsFrom idx rows).1.length + (validateRowsFrom idx rows).2.length
      = rows.length := by
  induction rows with
  | nil => intro idx; simp [validateRowsFrom]
  | cons row rows ih =>
      intro idx
      cases hc : checkRow row with
      | some reason =>
          simp only [validateRowsFrom, hc, List.length_cons]
          have := ih (idx + 1)
          omega
      | none =>
          simp only [validateRowsFrom, hc, List.length_cons]
          have := ih (idx + 1)
          omega

/-- C6: with zero decoded data rows the ingestion does fail, but with the
missing-columns reason, because the header check reads the first data row,
which does not exist, and so reports every required column as missing; the
distinct no-data branch (noValidDataRows, the thrown message "No valid data
rows found in the file" of src/unnamed/part_000 lines 121-123) is
unreachable for every input, since a passing header check needs a first row
and rows that all pass validation make validatedData as long as the input
while any failing row aborts first. -/
theorem empty_input_missing_columns :
    uploadAndDistribute [] [⟨0, 0⟩]
      = Except.error (IngestError.missingColumns ["firstname", "phone", "notes"]) ∧
    ∀ (rows : List RawRow) (agents : List AgentCtr),
      uploadAndDistribute rows agents ≠ Except.error IngestError.noValidDataRows := by
  constructor
  · rfl
  · intro rows agents h
    by_cases h1 : missingFields rows ≠ []
    · simp [uploadAndDistribute, h1] at h
    · by_cases h2 : (validateRows rows).1 ≠ []
      · simp [uploadAndDistribute, h1, h2] at h
      · have hlen := validateRowsFrom_lengths rows 0
        have h1' : missingFields rows = [] := not_not.mp h1
        have h2' : (validateRows rows).1 = [] := not_not.mp h2
        have hrows : rows ≠ [] := by
          intro hr
          subst hr
          simp [missingFields, requiredFields] at h1'
        have hv2 : (validateRows rows).2.length = rows.length := by
          have h0 : (validateRows rows).1.length = 0 := by
            rw [h2']
            rfl
          simp only [validateRows] at h0 ⊢
          omega
        have hpos : (validateRows rows).2.length ≠ 0 := by
          rw [hv2]
          intro hz
          exact hrows (List.eq_nil_of_length_eq_zero hz)
        by_cases h4 : agents.length = 0
        · simp [uploadAndDistribute, h1, h2, hpos, h4] at h
        · simp [uploadAndDistribute, h1, h2, hpos, h4] at h

/-- All Sub-Lists of one batch: the documents sharing one uploadId (the
aggregation stage groups by uploadId, src/unnamed/part_000 lines 234-236 and
428-430). -/
def batchLists (ls : List SubList) (u : String) : List SubList :=
  ls.filter (fun l => l.uploadId == u)

def sumTotalItems (ls : List SubList) : Nat :=
  (ls.map SubList.totalItems).sum

def sumCompletedItems (ls : List SubList) : Nat :=
  (ls.map SubList.completedItems).sum

def sumPendingItems (ls : List SubList) : Nat :=
  (ls.map SubList.pendingItems).sum

/-- The derived overall batch status (the $cond chain of
src/unnamed/part_000 lines 250-267): completed when the summed
completedItems equals the summed totalItems, else in_progress when the
summed completedItems is positive, else pending. -/
def overallStatus (totalItems completedItems : Nat) : String :=
  if completedItems = totalItems then "completed"
  else if 0 < completedItems then "in_progress"
  else "pending"

/-- C8: on every batch whose member documents satisfy the per-document
counter bound completedItems at most totalItems (which every saved document
does), the reported aggregate sums the cached per-document counters and the
derived status is completed exactly when the summed completedItems reaches
the summed totalItems, in_progress exactly when it lies strictly between 0
and that total, and pending in the remaining cases. -/
theorem batch_overall_status (ls : List SubList) (u : String)
    (hinv : ∀ l ∈ ls, l.completedItems ≤ l.totalItems) :
    (overallStatus (sumTotalItems (batchLists ls u))
        (sumCompletedItems (batchLists ls u)) = "completed"
      ↔ sumCompletedItems (batchLists ls u) = sumTotalItems (batchLists ls u)) ∧
    (overallStatus (sumTotalItems (batchLists ls u))
        (sumCompletedItems (batchLists ls u)) = "in_progress"
      ↔ (0 < sumCompletedItems (batchLists ls u) ∧
          sumCompletedItems (batchLists ls u) < sumTotalItems (batchLists ls u))) ∧
    (overallStatus (sumTotalItems (batchLists ls u))
        (sumCompletedItems (batchLists ls u)) = "pending"
      ↔ (sumCompletedItems (batchLists ls u) = 0 ∧
          0 < sumTotalItems (batchLists ls u))) := by
  have hle : sumCompletedItems (batchLists ls u) ≤ sumTotalItems (batchLists ls u) := by
    apply List.sum_le_sum
    intro l hl
    exact hinv l (List.mem_of_mem_filter hl)
  by_cases h1 : sumCompletedItems (batchLists ls u) = sumTotalItems (batchLists ls u)
  · simp only [overallStatus, if_pos h1]
    refine ⟨⟨fun _ => h1, fun _ => trivial⟩, ?_, ?_⟩
    · constructor
      · intro hcontra
        exact absurd hcontra (by decide)
      · intro hc
        omega
    · constructor
      · intro hcontra
        exact absurd hcontra (by decide)
      · intro hc
        omega
  · simp only [overallStatus, if_neg h1]
    by_cases h2 : 0 < sumCompletedItems (batchLists ls u)
    · simp only [if_pos h2]
      refine ⟨?_, ⟨fun _ => ⟨h2, by omega⟩, fun _ => trivial⟩, ?_⟩
      · constructor
        · intro hcontra
          exact absurd hcontra (by decide)
        · intro hc
          exact absurd hc h1
      · constructor
        · intro hcontra
          exact absurd hcontra (by decide)
        · intro hc
          omega
    · simp only [if_neg h2]
      refine ⟨?_, ?_, ?_⟩
      · constructor
        · intro hcontra
          exact absurd hcontra (by decide)
        · intro hc
          exact absurd hc h1
      · constructor
        · intro hcontra
          exact absurd hcontra (by decide)
        · intro hc
          omega
      · constructor
        · intro _
          omega
        · intro _
          trivial

theorem batch_overall_status_witness :
    sumTotalItems (batchLists
        [⟨"b1", 0, [], 5, 2, 3, 0⟩, ⟨"b1", 1, [], 5, 2, 3, 0⟩] "b1") = 10 ∧
    sumCompletedItems (batchLists
        [⟨"b1", 0, [], 5, 2, 3, 0⟩, ⟨"b1", 1, [], 5, 2, 3, 0⟩] "b1") = 4 ∧
    overallStatus 10 4 = "in_progress" ∧
    (overallStatus (sumTotalItems (batchLists
          [⟨"b1", 0, [], 5, 2, 3, 0⟩, ⟨"b1", 1, [], 5, 2, 3, 0⟩] "b1"))
        (sumCompletedItems (batchLists
          [⟨"b1", 0, [], 5, 2, 3, 0⟩, ⟨"b1", 1, [], 5, 2, 3, 0⟩] "b1"))
        = "in_progress"
      ↔ (0 < sumCompletedItems (batchLists
            [⟨"b1", 0, [], 5, 2, 3, 0⟩, ⟨"b1", 1, [], 5, 2, 3, 0⟩] "b1") ∧
          sumCompletedItems (batchLists
            [⟨"b1", 0, [], 5, 2, 3, 0⟩, ⟨"b1", 1, [], 5, 2, 3, 0⟩] "b1")
            < sumTotalItems (batchLists
            [⟨"b1", 0, [], 5, 2, 3, 0⟩, ⟨"b1", 1, [], 5, 2, 3, 0⟩] "b1"))) := by
  have h := batch_overall_status
    [⟨"b1", 0, [], 5, 2, 3, 0⟩, ⟨"b1", 1, [], 5, 2, 3, 0⟩] "b1" (by decide)
  exact ⟨by decide, by decide, by decide, h.2.1⟩

/-- The agent counter update of deleteList (src/unnamed/part_000
lines 613-622): assignedListsCount becomes Math.max(0, count - 1) and
totalItemsAssigned becomes Math.max(0, count - removed item total). -/
def deleteListAgentUpdate (a : AgentCtr) (removedItems : Nat) : AgentCtr :=
  { assignedListsCount := max 0 (a.assignedListsCount - 1)
    totalItemsAssigned := max 0 (a.totalItemsAssigned - removedItems) }

/-- C9: deleting a Sub-List holding k items (its stored totalItems, which
equals k for any saved document) decrements the owning agent counters by 1
and by k, both floored at zero: the results are never negative, whatever the
counters held, and the floor only engages when a counter was already smaller
than the amount subtracted. -/
theorem deleteList_floored_decrement (a : AgentCtr) (l : SubList)
    (hsaved : l.totalItems = l.items.length) :
    0 ≤ (deleteListAgentUpdate a l.totalItems).assignedListsCount ∧
    0 ≤ (deleteListAgentUpdate a l.totalItems).totalItemsAssigned ∧
    (1 ≤ a.assignedListsCount →
      (deleteListAgentUpdate a l.totalItems).assignedListsCount
        = a.assignedListsCount - 1) ∧
    ((l.items.length : Int) ≤ a.totalItemsAssigned →
      (deleteListAgentUpdate a l.totalItems).totalItemsAssigned
        = a.totalItemsAssigned - (l.items.length : Int)) := by
  simp only [deleteListAgentUpdate, hsaved]
  refine ⟨?_, ?_, ?_, ?_⟩
  · exact le_max_left 0 _
  · exact le_max_left 0 _
  · intro h
    omega
  · intro h
    omega

theorem deleteList_floored_decrement_witness :
    0 ≤ (deleteListAgentUpdate ⟨1, 3⟩
        (⟨"u", 0, List.replicate 5 ⟨1, "A", "1", "", Status.pending, none, none⟩,
          5, 0, 5, 0⟩ : SubList).totalItems).assignedListsCount ∧
    (deleteListAgentUpdate ⟨1, 3⟩
        (⟨"u", 0, List.replicate 5 ⟨1, "A", "1", "", Status.pending, none, none⟩,
          5, 0, 5, 0⟩ : SubList).totalItems)
      = ⟨0, 0⟩ := by
  have h := deleteList_floored_decrement ⟨1, 3⟩
    ⟨"u", 0, List.replicate 5 ⟨1, "A", "1", "", Status.pending, none, none⟩,
      5, 0, 5, 0⟩ (by decide)
  exact ⟨h.1, by decide⟩

/-- The $sum over the path "$inProgressItems" that every reporting pipeline
includes (src/unnamed/part_000 lines 242, 359, 435 and 652): the List schema
(src/models/list.js lines 42-93) declares no inProgressItems path, so the
path is missing on every persisted document and the MongoDB $sum
accumulator, which ignores missing and non-numeric values, contributes 0
per document. -/
def inProgressItemsField (_ : SubList) : Nat := 0

def sumInProgressItems (ls : List SubList) : Nat :=
  (ls.map inProgressItemsField).sum

/-- Per-upload aggregate of getAllDistributions and getDistributions. -/
def distributionInProgressItems (ls : List SubList) (u : String) : Nat :=
  sumInProgressItems (batchLists ls u)

/-- Per-agent aggregate of getAgentLists. -/
def agentInProgressItems (ls : List SubList) (a : Nat) : Nat :=
  sumInProgressItems (ls.filter (fun l => l.agentIdx == a))

/-- Global aggregate of getDashboardStats. -/
def dashboardInProgressItems (ls : List SubList) : Nat :=
  sumInProgressItems ls

/-- C10: every aggregate report sums a field no List document has, so the
reported inProgressItems is 0 on every database state, for the per-upload
summaries, the per-agent stats and the global dashboard stats alike,
regardless of how many items hold status contacted or failed. -/
theorem inProgressItems_always_zero (ls : List SubList) (u : String) (a : Nat) :
    distributionInProgressItems ls u = 0 ∧
    agentInProgressItems ls a = 0 ∧
    dashboardInProgressItems ls = 0 := by
  have hz : ∀ (ms : List SubList), (List.map inProgressItemsField ms).sum = 0 := by
    intro ms
    apply List.sum_eq_zero
    intro x hx
    rcases List.mem_map.mp hx with ⟨l2, hl2, hx2⟩
    rw [← hx2]
    rfl
  exact ⟨hz _, hz _, hz _⟩

/-- A row whose notes cell holds 501 characters and whose first name and
phone pass validation. -/
def longNotesRow : RawRow :=
  ⟨some "John", some "123", some (String.mk (List.replicate 501 'a'))⟩

set_option maxRecDepth 8000 in
/-- C5 counterexample: the row with a 501-character notes cell passes
first-name and phone validation, yet its cleaned contact keeps all 501
characters, strictly more than the 500-character limit: the validation path
never truncates notes (the maxlength of src/models/list.js lines 18-23 is a
mongoose validator, which rejects at persistence instead of truncating). -/
theorem notes_not_truncated_cex :
    checkRow longNotesRow = none ∧
    (cleanRow longNotesRow).notes.length = 501 ∧
    ¬((cleanRow longNotesRow).notes.length ≤ 500) := by
  refine ⟨by decide, by decide, by decide⟩

/-- C5 amended: for every row that passes first-name and phone validation the
notes cell is only trimmed, never truncated (the cleaned notes is exactly
the trimmed cell, whatever its length), and the notes cell plays no part in
row acceptance, so no notes value of any length can fail the row validation
step; the 500-character bound exists only as a schema validation constraint
on persistence. -/
theorem notes_trimmed_never_truncated (row : RawRow) (nt : Option String) :
    checkRow { row with notes := nt } = checkRow row ∧
    (cleanRow row).notes = jsTrim (row.notes.getD "") := by
  exact ⟨rfl, rfl⟩

theorem updateItemStatus_idempotent_witness :
    updateItemStatus
        ⟨"u", 0, [⟨1, "A", "1", "", Status.pending, none, none⟩], 1, 0, 1, 0⟩
        1 Status.contacted none 5
      = Except.ok
        ⟨"u", 0, [⟨1, "A", "1", "", Status.contacted, some 5, none⟩], 1, 0, 0, 5⟩ ∧
    updateItemStatus
        ⟨"u", 0, [⟨1, "A", "1", "", Status.contacted, some 5, none⟩], 1, 0, 0, 5⟩
        1 Status.contacted none 7
      = Except.ok
        ⟨"u", 0, [⟨1, "A", "1", "", Status.contacted, some 5, none⟩], 1, 0, 0, 7⟩ ∧
    (⟨"u", 0, [⟨1, "A", "1", "", Status.contacted, some 5, none⟩], 1, 0, 0, 7⟩
        : SubList).items
      = (⟨"u", 0, [⟨1, "A", "1", "", Status.contacted, some 5, none⟩], 1, 0, 0, 5⟩
        : SubList).items ∧
    (⟨"u", 0, [⟨1, "A", "1", "", Status.contacted, some 5, none⟩], 1, 0, 0, 7⟩
        : SubList).completedItems
      = (⟨"u", 0, [⟨1, "A", "1", "", Status.contacted, some 5, none⟩], 1, 0, 0, 5⟩
        : SubList).completedItems := by
  have h := updateItemStatus_idempotent
    ⟨"u", 0, [⟨1, "A", "1", "", Status.pending, none, none⟩], 1, 0, 1, 0⟩
    1 Status.contacted none 5 7
    ⟨"u", 0, [⟨1, "A", "1", "", Status.contacted, some 5, none⟩], 1, 0, 0, 5⟩
    ⟨"u", 0, [⟨1, "A", "1", "", Status.contacted, some 5, none⟩], 1, 0, 0, 7⟩
    (by rfl) (by rfl)
  exact ⟨by rfl, by rfl, h.1, h.2.2.1⟩
